import Mathlib

/-!
Shallow embedding of `xilefian::bvec` (src/cxx/include/xilefian/bvec.hpp) on a
64-bit platform (`__SIZEOF_POINTER__ == 8`, `block_type = uint64_t`).

The container is a tagged union: an inline ("stack") representation holding up
to 120 bits in a 128-bit field next to a 7-bit size, or a heap representation
holding a size (35-bit field), a capacity in words (28-bit field) and a buffer
of 64-bit words.  Machine integers are modelled as `Nat` with explicit masking
(`&&& blockMask`, `% 2 ^ 64`) where C++ unsigned wraparound matters; freshly
allocated (uninitialized) heap words are modelled as 0, matching the states
reachable in the tests we evaluate.
-/

namespace Xilefian

def blockDigits : Nat := 64

def blockMask : Nat := 2 ^ 64 - 1

def stackCapacity : Nat := 120

def stackSizeMask : Nat := 2 ^ 7 - 1

def stackDataMask : Nat := 2 ^ 120 - 1

def heapSizeMask : Nat := 2 ^ 35 - 1

def heapCapacityMask : Nat := 2 ^ 28 - 1

/-- `block_round(x) = (x + (block_digits - 1)) / block_digits`. -/
def blockRound (x : Nat) : Nat := (x + (blockDigits - 1)) / blockDigits

/-- Truncation to a 64-bit word (models storing into `block_type`). -/
def w64 (x : Nat) : Nat := x &&& blockMask

/-- Bitwise `~` on a `uint64_t` value. -/
def compl64 (x : Nat) : Nat := (x &&& blockMask) ^^^ blockMask

/-- Bitwise `~` on a `__uint128_t` value. -/
def compl128 (x : Nat) : Nat := (x &&& (2 ^ 128 - 1)) ^^^ (2 ^ 128 - 1)

/-- The state of a `bvec`: the union `m_data`.
`stack sz data`: `is_heap = false`, `size : 7` = `sz`, `data : 120` = `data`.
`heap sz cap ws`: `is_heap = true`, `size : 35` = `sz`, `capacity : 28` = `cap`,
and `ws` the word buffer `pointer[0..cap)`. -/
inductive Bvec where
  | stack (sz data : Nat)
  | heap (sz cap : Nat) (ws : List Nat)
deriving DecidableEq, Repr

namespace Bvec

/-- `size()`: the active representation's size field. -/
def size : Bvec → Nat
  | .stack sz _ => sz
  | .heap sz _ _ => sz

/-- `get_at(pos)`: `pointer[pos / digits] & (1 << pos % digits)` as a bool on
the heap, `data & (1 << pos)` as a bool inline. -/
def get_at : Bvec → Nat → Bool
  | .heap _ _ ws, pos => Nat.testBit (ws.getD (pos / blockDigits) 0) (pos % blockDigits)
  | .stack _ data, pos => Nat.testBit data pos

end Bvec

/-- `(List.range n).map (fun i => ws.getD (start + i) 0)`: the `n` words that
`memcpy` reads starting at word index `start`. -/
def wordSlice (ws : List Nat) (start n : Nat) : List Nat :=
  (List.range n).map (fun i => ws.getD (start + i) 0)

/-- The loop `for (ii = lo; ii < hi; ++ii) pointer[ii] = fill;`, fuel-counted
(`hi - lo` iterations). -/
def fillWordsAux (ws : List Nat) (lo fill : Nat) : Nat → List Nat
  | 0 => ws
  | n + 1 => fillWordsAux (ws.set lo fill) (lo + 1) fill n

def fillWords (ws : List Nat) (lo hi fill : Nat) : List Nat :=
  fillWordsAux ws lo fill (hi - lo)

/-- `bvec::resize_stack(count, value)`. -/
def resizeStack (sz data count : Nat) (value : Bool) : Bvec :=
  let data' :=
    if count > sz then
      (if value then data ||| (stackDataMask <<< sz)
       else data &&& compl128 (stackDataMask <<< sz)) &&& stackDataMask
    else data
  .stack (count &&& stackSizeMask) data'

/-- `bvec::grow_to_heap(count, value)`: promotion from the inline
representation.  The fresh allocation is modelled as zero words. -/
def growToHeap (sz data count : Nat) (value : Bool) : Bvec :=
  let wordsN := blockRound count
  let tailWord := sz / blockDigits
  let tailSize := sz % blockDigits
  let ws0 := List.replicate wordsN 0
  let ws1 := if tailWord ≠ 0 then ws0.set 0 (data &&& blockMask) else ws0
  let (tw, ws2) :=
    if tailSize ≠ 0 then
      (tailWord + 1,
       ws1.set tailWord
         (if value then w64 (blockMask <<< tailSize) ||| ((data >>> blockDigits) &&& blockMask)
          else (data >>> blockDigits) &&& blockMask))
    else (tailWord, ws1)
  let fill := if value then blockMask else 0
  let ws3 := fillWords ws2 tw wordsN fill
  .heap (count &&& heapSizeMask) (wordsN &&& heapCapacityMask) ws3

/-- `bvec::resize_heap(count, value)`.  The reallocation path copies the old
`capacity` words (`memcpy`) into a fresh buffer (uninitialized tail modelled
as zero words). -/
def resizeHeap (sz cap : Nat) (ws : List Nat) (count : Nat) (value : Bool) : Bvec :=
  let wordsN := blockRound count
  if wordsN > cap then
    let ws1 := wordSlice ws 0 cap ++ List.replicate (wordsN - cap) 0
    let tailWord := sz / blockDigits
    let tailSize := sz % blockDigits
    let (tw, ws2) :=
      if tailSize ≠ 0 then
        (tailWord + 1,
         ws1.set tailWord
           (if value then w64 (ws1.getD tailWord 0 ||| (blockMask <<< tailSize))
            else ws1.getD tailWord 0 &&& compl64 (blockMask <<< tailSize)))
      else (tailWord, ws1)
    let fill := if value then blockMask else 0
    let ws3 := fillWords ws2 tw wordsN fill
    .heap (count &&& heapSizeMask) (wordsN &&& heapCapacityMask) ws3
  else
    let ws' :=
      if count > sz then
        let tailWord := sz / blockDigits
        let tailSize := sz % blockDigits
        ws.set tailWord
          (if value then w64 (ws.getD tailWord 0 ||| (blockMask <<< tailSize))
           else ws.getD tailWord 0 &&& compl64 (blockMask <<< tailSize))
      else ws
    .heap (count &&& heapSizeMask) cap ws'

/-- `bvec::resize(count, value)`. -/
def Bvec.resize (v : Bvec) (count : Nat) (value : Bool) : Bvec :=
  match v with
  | .heap sz cap ws => resizeHeap sz cap ws count value
  | .stack sz data =>
    if count > stackCapacity then growToHeap sz data count value
    else resizeStack sz data count value

/-- The carry loop of the single-position `erase`: starting at `lastWord` and
walking down while `lastWord > posWord`, each word is shifted right one bit
with the previous iteration's carry placed in its top bit.  Fuel-counted
(`lastWord - posWord` iterations). -/
def carryShiftAux (ws : List Nat) (carry : Bool) (lastWord : Nat) : Nat → Bool × List Nat
  | 0 => (carry, ws)
  | n + 1 =>
    let w := ws.getD lastWord 0
    let carryBit := if carry then 1 <<< (blockDigits - 1) else 0
    carryShiftAux (ws.set lastWord ((w >>> 1) ||| carryBit)) ((w &&& 1) != 0) (lastWord - 1) n

/-- `bvec::erase(const_iterator pos)` (single position).  Note the heap branch
of the source mutates the words but never decrements `m_data.heap.size`; the
stack branch decrements the 7-bit size field (with wraparound). -/
def Bvec.eraseOne (v : Bvec) (pos : Nat) : Bvec :=
  match v with
  | .heap sz cap ws =>
    let posWord := pos / blockDigits
    let posWordSize := pos % blockDigits
    let lastWord := sz / blockDigits
    let (carry, ws1) := carryShiftAux ws false lastWord (lastWord - posWord)
    let upper := ws1.getD posWord 0 >>> (posWordSize + 1)
    let lower := ws1.getD posWord 0 &&& ((1 <<< posWordSize) - 1)
    let ws2 := ws1.set posWord
      ((if carry then 1 <<< (blockDigits - 1) else 0) ||| w64 (upper <<< posWordSize) ||| lower)
    .heap sz cap ws2
  | .stack sz data =>
    let upper := data >>> (pos + 1)
    let lower := data &&& ((1 <<< pos) - 1)
    .stack ((sz + stackSizeMask) &&& stackSizeMask) (((upper <<< pos) ||| lower) &&& stackDataMask)

/-- One byte of the word buffer, reinterpreted little-endian as `uint8_t*`. -/
def byteGet (ws : List Nat) (k : Nat) : Nat :=
  (ws.getD (k / 8) 0 >>> ((k % 8) * 8)) &&& 255

/-- Store one byte of the word buffer (little-endian `uint8_t*` view). -/
def byteSet (ws : List Nat) (k b : Nat) : List Nat :=
  ws.set (k / 8) ((ws.getD (k / 8) 0 &&& compl64 (255 <<< ((k % 8) * 8))) ||| (b <<< ((k % 8) * 8)))

/-- `__builtin_memcpy(&data8[dst], &data8[src], n)` with `dst ≤ src`, modelled
as the ascending byte copy the overlapping regions require. -/
def byteCopy (ws : List Nat) (dst src : Nat) : Nat → List Nat
  | 0 => ws
  | n + 1 => byteCopy (byteSet ws dst (byteGet ws src)) (dst + 1) (src + 1) n

/-- The word-by-word shift loop of the range `erase`
(`data[firstBlock+ii] = (data[lastBlock+ii] >> lastBit) | (data[lastBlock+ii+1] << (64-lastBit))`),
fuel-counted with `ii` ascending 0..span-1. -/
def wordShiftAux (ws : List Nat) (fB lB lBit ii : Nat) : Nat → List Nat
  | 0 => ws
  | n + 1 =>
    wordShiftAux
      (ws.set (fB + ii)
        ((ws.getD (lB + ii) 0 >>> lBit) ||| w64 (ws.getD (lB + ii + 1) 0 <<< (blockDigits - lBit))))
      fB lB lBit (ii + 1) n

/-- `bvec::erase(const_iterator first, const_iterator last)` (range erase).
C++ shifts whose amount can reach the word width (undefined behavior in the
source) are modelled as `Nat` shifts truncated by `w64`; the `memcpy` byte
count `endByte - lastByte` uses truncated subtraction.  Neither corner is
exercised by the concrete inputs evaluated below. -/
def Bvec.eraseRange (v : Bvec) (first last : Nat) : Bvec :=
  match v with
  | .heap sz cap ws =>
    if last > sz then .heap (first &&& heapSizeMask) cap ws
    else
      let firstBlock := first / blockDigits
      let firstBit := first % blockDigits
      let lastBlock := last / blockDigits
      let lastBit := last % blockDigits
      let endBlock := blockRound sz
      -- "Handle first block": fold last's word into first's word.
      let st :=
        if firstBlock == lastBlock then
          let upperMask := w64 (blockMask <<< lastBit)
          let lowerMask := (1 <<< firstBit) - 1
          let d0 := ws.getD firstBlock 0
          let ws1 := ws.set firstBlock
            ((d0 &&& lowerMask) ||| ((d0 &&& upperMask) >>> (lastBit - firstBit)))
          let lastBlock1 := lastBlock + 1
          let ws2 :=
            if lastBlock1 < endBlock then
              ws1.set firstBlock
                (w64 (ws1.getD firstBlock 0 |||
                  w64 (ws1.getD lastBlock1 0 <<< (blockDigits - lastBit - firstBit))))
            else ws1
          (firstBlock + 1, 0, lastBlock1, (lastBit + blockDigits - firstBit) % blockDigits, ws2)
        else if firstBit ≠ 0 then
          let lowerMask := (1 <<< firstBit) - 1
          let d0 := ws.getD firstBlock 0
          let ws1 := ws.set firstBlock
            ((d0 &&& lowerMask) ||| w64 ((ws.getD lastBlock 0 >>> lastBit) <<< firstBit))
          let lastBlock1 := lastBlock + 1
          let ws2 :=
            if firstBit < lastBit ∧ lastBlock1 < endBlock then
              ws1.set firstBlock
                (w64 (ws1.getD firstBlock 0 |||
                  w64 (ws1.getD lastBlock1 0 <<< (firstBit + blockDigits - lastBit))))
            else ws1
          (firstBlock + 1, 0, lastBlock1, (lastBit + blockDigits - firstBit) % blockDigits, ws2)
        else (firstBlock, firstBit, lastBlock, lastBit, ws)
      match st with
      | (fB, fBit, lB, lBit, ws') =>
        -- "Handle remaining blocks".
        let ws'' :=
          if fBit % 8 == 0 ∧ lBit % 8 == 0 then
            let firstByte := fB * 8 + fBit / 8
            let lastByte := lB * 8 + lBit / 8
            let endByte := (sz + 7) / 8
            byteCopy ws' firstByte lastByte (endByte - lastByte)
          else if lB > fB then
            let blockSpan := lB - fB
            let wsL := wordShiftAux ws' fB lB lBit 0 blockSpan
            wsL.set (fB + blockSpan) (wsL.getD (lB + blockSpan) 0 >>> lBit)
          else ws'
        .heap ((sz - (last - first)) &&& heapSizeMask) cap ws''
  | .stack sz data =>
    if last > sz then .stack (first &&& stackSizeMask) data
    else
      let lower := data &&& ((1 <<< first) - 1)
      let upper := data >>> last
      .stack ((sz - (last - first)) &&& stackSizeMask) (((upper <<< first) ||| lower) &&& stackDataMask)

/-- The specialized `bvec::assign(InputIt first, InputIt last)` for the
container's own iterator types, taking `other` (the iterators' owner) and the
two iterator positions.  The heap branch bulk-copies the whole words covering
the slice and then erases the leading `beginBit` bits. -/
def assignSlice (other : Bvec) (first last : Nat) : Bvec :=
  match other with
  | .heap _ _ ws =>
    let beginPos := first
    let endPos := last
    let beginWord := beginPos / blockDigits
    let beginBit := beginPos % blockDigits
    let endWord := blockRound endPos
    let endBit := endPos % blockDigits
    let wordsN := endWord - beginWord
    let v1 : Bvec := .heap ((wordsN * blockDigits - endBit) &&& heapSizeMask)
      (wordsN &&& heapCapacityMask) (wordSlice ws beginWord wordsN)
    v1.eraseRange 0 beginBit
  | .stack _ data =>
    .stack ((last - first) &&& stackSizeMask) ((data >>> first) &&& stackDataMask)

/-- `bvec(const bvec&)` / `operator=`: `assign(other.cbegin(), other.cend())`. -/
def copyAssign (other : Bvec) : Bvec := assignSlice other 0 other.size

/-- `bvec::assign(count, value)`: reset `m_data.stack = {}` then `resize`. -/
def assignFill (count : Nat) (value : Bool) : Bvec :=
  Bvec.resize (.stack 0 0) count value

/-- The loop `for (ii = lo; ii < hi; ++ii) pointer[ii] = ~pointer[ii];`,
fuel-counted. -/
def flipWordsAux (ws : List Nat) (lo : Nat) : Nat → List Nat
  | 0 => ws
  | n + 1 => flipWordsAux (ws.set lo (compl64 (ws.getD lo 0))) (lo + 1) n

/-- `bvec::flip()`: complement every word of `block_round(size)` words on the
heap, `data = ~data` (truncated to the 120-bit field) inline. -/
def Bvec.flip (v : Bvec) : Bvec :=
  match v with
  | .heap sz cap ws => .heap sz cap (flipWordsAux ws 0 (blockRound sz))
  | .stack sz data => .stack sz (compl128 data &&& stackDataMask)

/-- The loop of `operator==`: all positions below `n` hold equal bits. -/
def beqLoop (a b : Bvec) : Nat → Bool
  | 0 => true
  | n + 1 => beqLoop a b n && (a.get_at n == b.get_at n)

/-- `operator==(lhs, rhs)`: equal sizes and equal bits at every position. -/
def beqBvec (a b : Bvec) : Bool :=
  if a.size != b.size then false else beqLoop a b a.size

/-- The first two loops of `operator<=>`: scan positions `lo + n - 1` down to
`lo`, true as soon as a set bit is found. -/
def anyHigh (v : Bvec) (lo : Nat) : Nat → Bool
  | 0 => false
  | n + 1 => v.get_at (lo + n) || anyHigh v lo n

/-- The final loop of `operator<=>`: compare bits from position `n - 1` down
to 0, deciding at the first difference. -/
def cmpDown (a b : Bvec) : Nat → Ordering
  | 0 => .eq
  | n + 1 =>
    if a.get_at n && !b.get_at n then .gt
    else if !a.get_at n && b.get_at n then .lt
    else cmpDown a b n

/-- `operator<=>(lhs, rhs)` (`weak_ordering` rendered as `Ordering`): extra
high-order bits of the longer operand decide first, then the shared range is
compared most-significant-first. -/
def cmpBvec (a b : Bvec) : Ordering :=
  if a.size > b.size then
    if anyHigh a b.size (a.size - b.size) then .gt else cmpDown a b b.size
  else if b.size > a.size then
    if anyHigh b a.size (b.size - a.size) then .lt else cmpDown a b a.size
  else cmpDown a b a.size

/-- The unmasked 64-bit read of `bvec_cast<std::size_t>`: `pointer[pos]` on
the heap, `data >> (pos * digits)` inline. -/
def Bvec.word (v : Bvec) (pos : Nat) : Nat :=
  match v with
  | .heap _ _ ws => ws.getD pos 0
  | .stack _ data => data >>> (pos * blockDigits)

/-- `bvec_cast<std::size_t>(c, pos)`: the 64-bit word at word index `pos`,
masked beyond `size` when `pos` is the final partial word. -/
def bvecCast64 (v : Bvec) (pos : Nat) : Nat :=
  let digits := blockDigits
  let lastWord := v.size / digits
  let mask := if pos == lastWord then blockMask >>> (blockDigits - v.size % digits) else blockMask
  v.word pos &&& mask

/-- The fold of `std::hash<bvec>`: seeded with `size`,
`result = result * block_digits + bvec_cast<std::size_t>(key, ii)` over words
`0..k-1` (in `std::size_t` arithmetic, i.e. mod `2^64`). -/
def hashFold (v : Bvec) : Nat → Nat
  | 0 => v.size
  | k + 1 => (hashFold v k * blockDigits + bvecCast64 v k) % 2 ^ 64

/-- `std::hash<bvec>::operator()`. -/
def hashBvec (v : Bvec) : Nat :=
  hashFold v ((v.size + blockDigits - 1) / blockDigits)

/-- `bvec_cast<unsigned int>(c, pos)`: a 32-bit read of the buffer at 32-bit
word index `pos` (little-endian `reinterpret_cast`), masked by the (64-bit)
`block_mask` shifted for the final partial 32-bit word, then truncated by
`static_cast<unsigned int>`. -/
def bvecCast32 (v : Bvec) (pos : Nat) : Nat :=
  let digits : Nat := 32
  let lastWord := v.size / digits
  let mask := if pos == lastWord then blockMask >>> (blockDigits - v.size % digits) else blockMask
  let raw :=
    match v with
    | .heap _ _ ws => ((ws.getD (pos / 2) 0 >>> ((pos % 2) * 32)) &&& (2 ^ 32 - 1)) &&& mask
    | .stack _ data => (data >>> (pos * digits)) &&& mask
  raw % 2 ^ 32

/-- Binary digit sum, fuel-counted (32 digits suffice for a 32-bit value). -/
def popcountAux (n : Nat) : Nat → Nat
  | 0 => 0
  | k + 1 => n % 2 + popcountAux (n / 2) k

/-- `__builtin_popcount` (population count of a 32-bit value). -/
def popcount (n : Nat) : Nat := popcountAux n 32

/-- The popcount loop of `std::erase`: sum of `__builtin_popcount(bvec_cast<unsigned int>(c, ii))`
over `ii = 0..k-1`. -/
def popLoop (v : Bvec) : Nat → Nat
  | 0 => 0
  | k + 1 => popLoop v k + popcount (bvecCast32 v k)

/-- `std::erase(c, value)`: popcount over `(size + 63) / 64` 32-bit reads,
then rewrite the container as a uniform block of the other value.  Returns
(return value, new container). -/
def stdErase (v : Bvec) (value : Bool) : Nat × Bvec :=
  let digits := blockDigits
  let lastWord := (v.size + digits - 1) / digits
  let popCount := popLoop v lastWord
  if value then (popCount, assignFill (v.size - popCount) false)
  else (v.size - popCount, assignFill popCount true)

/-- The loop of `std::erase_if(c, pred)`: `while (iter != c.end()) { if
(pred(*iter)) c.erase(iter); else ++iter; }`, fuel-counted; `none` means the
fuel ran out before the loop exited. -/
def eraseIfLoop (pred : Bool → Bool) (v : Bvec) (iter : Nat) : Nat → Option Bvec
  | 0 => none
  | fuel + 1 =>
    if iter != v.size then
      if pred (v.get_at iter) then eraseIfLoop pred (v.eraseOne iter) iter fuel
      else eraseIfLoop pred v (iter + 1) fuel
    else some v

/-- `std::erase_if(c, pred)`: the erased-bit count and final state, when the
loop terminates within `fuel` steps. -/
def stdEraseIf (pred : Bool → Bool) (v : Bvec) (fuel : Nat) : Option (Nat × Bvec) :=
  (eraseIfLoop pred v 0 fuel).map (fun v' => (v.size - v'.size, v'))

/-- The states a C++ `bvec` can actually be in: the inline size fits the
7-bit field with at most 120 bits of data, and a heap buffer covers at least
`block_round(size)` words of genuine `uint64_t` values. -/
def Wf : Bvec → Prop
  | .stack sz data => sz ≤ stackCapacity ∧ data < 2 ^ stackCapacity
  | .heap sz _ ws => blockRound sz ≤ ws.length ∧ ∀ i < ws.length, ws.getD i 0 < 2 ^ blockDigits

/-- Spec-side reading of the ordering contract: the value of bit positions
`[0, n)` as an unsigned number with position 0 least significant. -/
def bitValue (v : Bvec) : Nat → Nat
  | 0 => 0
  | n + 1 => bitValue v n + (if v.get_at n then 2 ^ n else 0)

/-- Spec-side: the whole container as an unsigned number. -/
def numericValue (v : Bvec) : Nat := bitValue v v.size

/-! ## Helper lemmas -/

theorem getD_set (ws : List Nat) (i j a : Nat) :
    (ws.set i a).getD j 0 = if i = j ∧ i < ws.length then a else ws.getD j 0 := by
  rw [List.getD_eq_getElem?_getD, List.getD_eq_getElem?_getD, List.getElem?_set]
  split_ifs <;> first | rfl | tauto | rw [List.getElem?_eq_none (by omega)]

theorem length_flipWordsAux (ws : List Nat) (lo n : Nat) :
    (flipWordsAux ws lo n).length = ws.length := by
  induction n generalizing ws lo with
  | zero => rfl
  | succ n ih => rw [flipWordsAux, ih, List.length_set]

theorem flipWordsAux_getD (ws : List Nat) (lo n i : Nat) :
    (flipWordsAux ws lo n).getD i 0 =
      if lo ≤ i ∧ i < lo + n ∧ i < ws.length then compl64 (ws.getD i 0)
      else ws.getD i 0 := by
  induction n generalizing ws lo with
  | zero =>
    rw [flipWordsAux, if_neg]
    omega
  | succ n ih =>
    rw [flipWordsAux, ih]
    simp only [List.length_set]
    rw [getD_set]
    by_cases hli : lo = i
    · subst hli
      split_ifs <;> first | rfl | omega
    · split_ifs <;> first | rfl | omega

theorem compl64_lt (x : Nat) : compl64 x < 2 ^ blockDigits := by
  have h1 : x &&& blockMask < 2 ^ blockDigits := by
    have := Nat.and_le_right (n := x) (m := blockMask)
    simp only [blockMask, blockDigits] at *
    omega
  have h2 : blockMask < 2 ^ blockDigits := by
    simp only [blockMask, blockDigits]
    omega
  exact Nat.xor_lt_two_pow h1 h2

theorem testBit_compl64 (w j : Nat) (hj : j < blockDigits) :
    (compl64 w).testBit j = !w.testBit j := by
  simp only [compl64, blockMask, blockDigits] at *
  rw [Nat.testBit_xor, Nat.testBit_land, Nat.testBit_two_pow_sub_one]
  simp [hj]

/-! ## C10: flip -/

theorem flip_size (v : Bvec) : v.flip.size = v.size := by
  cases v <;> rfl

theorem wf_flip {v : Bvec} (h : Wf v) : Wf v.flip := by
  cases v with
  | stack sz data =>
    refine ⟨h.1, ?_⟩
    have hle : compl128 data &&& stackDataMask ≤ stackDataMask := Nat.and_le_right
    simp only [stackDataMask, stackCapacity] at *
    omega
  | heap sz cap ws =>
    refine ⟨?_, ?_⟩
    · rw [length_flipWordsAux]; exact h.1
    · intro i hi
      rw [length_flipWordsAux] at hi
      rw [flipWordsAux_getD]
      split
      · exact compl64_lt _
      · exact h.2 i hi

theorem get_at_flip {v : Bvec} (h : Wf v) {p : Nat} (hp : p < v.size) :
    v.flip.get_at p = !(v.get_at p) := by
  cases v with
  | stack sz data =>
    have h120 : p < 120 := by
      have := h.1
      simp only [stackCapacity] at this
      simp only [Bvec.size] at hp
      omega
    simp only [Bvec.flip, Bvec.get_at, compl128, stackDataMask]
    rw [Nat.testBit_land, Nat.testBit_xor, Nat.testBit_land,
      Nat.testBit_two_pow_sub_one, Nat.testBit_two_pow_sub_one]
    have h128 : p < 128 := by omega
    simp [h120, h128]
  | heap sz cap ws =>
    simp only [Bvec.size] at hp
    simp only [Bvec.flip, Bvec.get_at]
    rw [flipWordsAux_getD, if_pos ?side]
    case side =>
      refine ⟨Nat.zero_le _, ?_, ?_⟩
      · simp only [blockRound, blockDigits]
        omega
      · have h1 := h.1
        simp only [blockRound, blockDigits] at h1 ⊢
        omega
    exact testBit_compl64 _ _ (by simp only [blockDigits]; omega)

/-- C10: a single `flip()` keeps `size` and complements every bit in
`[0, size)`; flipping twice restores size and every bit in `[0, size)`. -/
theorem flip_involution (v : Bvec) (h : Wf v) :
    (v.flip.size = v.size ∧ ∀ p, p < v.size → v.flip.get_at p = !(v.get_at p)) ∧
    (v.flip.flip.size = v.size ∧ ∀ p, p < v.size → v.flip.flip.get_at p = v.get_at p) := by
  have hw := wf_flip h
  refine ⟨⟨flip_size v, fun p hp => get_at_flip h hp⟩,
    ⟨by rw [flip_size, flip_size], fun p hp => ?_⟩⟩
  rw [get_at_flip hw (by rw [flip_size]; exact hp), get_at_flip h hp, Bool.not_not]

/-- C10 witness: `flip` at a concrete 3-bit heap vector complements bit 1. -/
theorem flip_involution_witness :
    (Bvec.heap 3 1 [5]).flip.get_at 1 = !((Bvec.heap 3 1 [5]).get_at 1) :=
  (flip_involution (Bvec.heap 3 1 [5]) ⟨by decide, by decide⟩).1.2 1 (by decide)

/-! ## C8: hash respects equality -/

theorem word_testBit (v : Bvec) (pos j : Nat) (hj : j < blockDigits) :
    (v.word pos).testBit j = v.get_at (pos * blockDigits + j) := by
  cases v with
  | heap sz cap ws =>
    simp only [Bvec.word, Bvec.get_at]
    simp only [blockDigits] at hj ⊢
    have h1 : (pos * 64 + j) / 64 = pos := by omega
    have h2 : (pos * 64 + j) % 64 = j := by omega
    rw [h1, h2]
  | stack sz data =>
    simp only [Bvec.word, Bvec.get_at, Nat.testBit_shiftRight]

theorem castMask_testBit (sz pos j : Nat) :
    (if pos == sz / blockDigits then blockMask >>> (blockDigits - sz % blockDigits)
     else blockMask).testBit j
      = decide (j < if pos == sz / blockDigits then sz % blockDigits else blockDigits) := by
  split
  · rw [Nat.testBit_shiftRight]
    simp only [blockMask, blockDigits, Nat.testBit_two_pow_sub_one]
    rw [decide_eq_decide]
    omega
  · simp only [blockMask, blockDigits, Nat.testBit_two_pow_sub_one]

theorem bvecCast64_congr {a b : Bvec} (hs : a.size = b.size)
    (hbits : ∀ p, p < a.size → a.get_at p = b.get_at p) {pos : Nat}
    (hpos : pos < (a.size + blockDigits - 1) / blockDigits) :
    bvecCast64 a pos = bvecCast64 b pos := by
  simp only [bvecCast64, ← hs]
  apply Nat.eq_of_testBit_eq
  intro j
  rw [Nat.testBit_land, Nat.testBit_land, castMask_testBit]
  by_cases hj : j < if pos == a.size / blockDigits then a.size % blockDigits else blockDigits
  · have hj64 : j < blockDigits := by
      by_cases hq : (pos == a.size / blockDigits) = true
      · rw [if_pos hq] at hj
        simp only [blockDigits] at *
        omega
      · rw [if_neg hq] at hj
        exact hj
    rw [word_testBit a pos j hj64, word_testBit b pos j hj64, hbits]
    by_cases hq : (pos == a.size / blockDigits) = true
    · rw [if_pos hq] at hj
      have hpe : pos = a.size / blockDigits := by simpa using hq
      simp only [blockDigits] at *
      omega
    · rw [if_neg hq] at hj
      have hpe : ¬pos = a.size / blockDigits := by simpa using hq
      simp only [blockDigits] at *
      omega
  · simp only [decide_eq_false hj, Bool.and_false]

theorem hashFold_congr {a b : Bvec} (hs : a.size = b.size)
    (hbits : ∀ p, p < a.size → a.get_at p = b.get_at p) :
    ∀ k, k ≤ (a.size + blockDigits - 1) / blockDigits → hashFold a k = hashFold b k := by
  intro k
  induction k with
  | zero => intro _; simp [hashFold, hs]
  | succ k ih =>
    intro hk
    rw [hashFold, hashFold, ih (by omega), bvecCast64_congr hs hbits (by omega)]

theorem beqLoop_get_at {a b : Bvec} :
    ∀ {n}, beqLoop a b n = true → ∀ p, p < n → a.get_at p = b.get_at p := by
  intro n
  induction n with
  | zero => intro _ p hp; omega
  | succ n ih =>
    intro h p hp
    rw [beqLoop, Bool.and_eq_true] at h
    rcases Nat.lt_succ_iff_lt_or_eq.mp hp with h' | h'
    · exact ih h.1 p h'
    · subst h'
      exact eq_of_beq h.2

theorem beq_size {a b : Bvec} (h : beqBvec a b = true) : a.size = b.size := by
  rw [beqBvec] at h
  split at h
  · exact absurd h (by simp)
  · next hne => simpa using hne

/-- C8: two vectors equal under `operator==` (same size, every bit equal,
regardless of representation) produce the same `std::hash` value. -/
theorem hash_eq_of_beq (a b : Bvec) (h : beqBvec a b = true) :
    hashBvec a = hashBvec b := by
  have hs : a.size = b.size := beq_size h
  have hbits : ∀ p, p < a.size → a.get_at p = b.get_at p := by
    rw [beqBvec] at h
    split at h
    · exact absurd h (by simp)
    · exact beqLoop_get_at h
  rw [hashBvec, hashBvec, ← hs]
  exact hashFold_congr hs hbits _ le_rfl

/-- C8 witness: an inline vector and a heap-backed vector holding the same
five bits hash identically. -/
theorem hash_eq_of_beq_witness :
    hashBvec (Bvec.stack 5 21) = hashBvec (Bvec.heap 5 1 [21]) :=
  hash_eq_of_beq (Bvec.stack 5 21) (Bvec.heap 5 1 [21]) (by decide)

/-! ## C7: three-way comparison orders by numeric value -/

theorem bitValue_lt (v : Bvec) (n : Nat) : bitValue v n < 2 ^ n := by
  induction n with
  | zero => simp [bitValue]
  | succ n ih =>
    rw [bitValue]
    have h2 : 2 ^ (n + 1) = 2 ^ n + 2 ^ n := by ring
    split <;> omega

theorem bitValue_le_succ (v : Bvec) (n : Nat) : bitValue v n ≤ bitValue v (n + 1) := by
  rw [bitValue]
  omega

theorem anyHigh_false {v : Bvec} {lo : Nat} :
    ∀ {n}, anyHigh v lo n = false → bitValue v (lo + n) = bitValue v lo := by
  intro n
  induction n with
  | zero => intro _; rfl
  | succ n ih =>
    intro h
    rw [anyHigh, Bool.or_eq_false_iff] at h
    rw [show lo + (n + 1) = (lo + n) + 1 by omega, bitValue, h.1, ih h.2]
    simp

theorem anyHigh_true {v : Bvec} {lo : Nat} :
    ∀ {n}, anyHigh v lo n = true → 2 ^ lo ≤ bitValue v (lo + n) := by
  intro n
  induction n with
  | zero => intro h; exact absurd h (by simp [anyHigh])
  | succ n ih =>
    intro h
    rw [anyHigh, Bool.or_eq_true] at h
    rw [show lo + (n + 1) = (lo + n) + 1 by omega, bitValue]
    rcases h with h | h
    · have hpow : 2 ^ lo ≤ 2 ^ (lo + n) := Nat.pow_le_pow_right (by omega) (by omega)
      rw [h, if_pos rfl]
      exact le_trans hpow (Nat.le_add_left _ _)
    · exact le_trans (ih h) (Nat.le_add_right _ _)

theorem compare_add_right (x y c : Nat) : compare (x + c) (y + c) = compare x y := by
  rcases Nat.lt_trichotomy x y with h | h | h
  · rw [compare_lt_iff_lt.mpr h, compare_lt_iff_lt.mpr (by omega)]
  · subst h
    rw [compare_eq_iff_eq.mpr rfl, compare_eq_iff_eq.mpr rfl]
  · rw [compare_gt_iff_gt.mpr h, compare_gt_iff_gt.mpr (by omega)]

theorem cmpDown_eq_compare (a b : Bvec) :
    ∀ n, cmpDown a b n = compare (bitValue a n) (bitValue b n) := by
  intro n
  induction n with
  | zero => rw [cmpDown, bitValue, bitValue, compare_eq_iff_eq.mpr rfl]
  | succ n ih =>
    rw [cmpDown, bitValue, bitValue]
    cases ha : a.get_at n <;> cases hb : b.get_at n
    · simpa using ih
    · have h1 : bitValue a n < bitValue b n + 2 ^ n := by
        have := bitValue_lt a n
        omega
      simpa using (compare_lt_iff_lt.mpr h1).symm
    · have h1 : bitValue b n < bitValue a n + 2 ^ n := by
        have := bitValue_lt b n
        omega
      simpa using (compare_gt_iff_gt.mpr h1).symm
    · simpa [compare_add_right] using ih

/-- C7: `operator<=>` orders two vectors exactly as the unsigned numbers they
denote with position 0 least significant. -/
theorem cmp_eq_compare_numericValue (a b : Bvec) :
    cmpBvec a b = compare (numericValue a) (numericValue b) := by
  rw [cmpBvec, numericValue, numericValue]
  split
  · next hgt =>
    cases hhi : anyHigh a b.size (a.size - b.size)
    · rw [if_neg Bool.false_ne_true]
      have he : bitValue a (b.size + (a.size - b.size)) = bitValue a b.size :=
        anyHigh_false hhi
      rw [show b.size + (a.size - b.size) = a.size by omega] at he
      rw [he, cmpDown_eq_compare]
    · rw [if_pos rfl]
      have hle := anyHigh_true hhi
      rw [show b.size + (a.size - b.size) = a.size by omega] at hle
      have hlt : bitValue b b.size < bitValue a a.size :=
        lt_of_lt_of_le (bitValue_lt b b.size) hle
      rw [compare_gt_iff_gt.mpr hlt]
  · split
    · next hlt =>
      cases hhi : anyHigh b a.size (b.size - a.size)
      · rw [if_neg Bool.false_ne_true]
        have he : bitValue b (a.size + (b.size - a.size)) = bitValue b a.size :=
          anyHigh_false hhi
        rw [show a.size + (b.size - a.size) = b.size by omega] at he
        rw [he, cmpDown_eq_compare]
      · rw [if_pos rfl]
        have hle := anyHigh_true hhi
        rw [show a.size + (b.size - a.size) = b.size by omega] at hle
        have hlt' : bitValue a a.size < bitValue b b.size :=
          lt_of_lt_of_le (bitValue_lt a a.size) hle
        rw [compare_lt_iff_lt.mpr hlt']
    · next h1 h2 =>
      have hs : a.size = b.size := by omega
      rw [cmpDown_eq_compare, hs]

/-! ## C1–C6, C9: evaluations of the code at concrete failing inputs -/

/-- C1: copying a heap-backed vector of 65 bits through
`assign(other.begin(), other.end())` yields a vector whose size field is 127
(`words * block_digits - endBit` with `endBit = 65 % 64 = 1`), so the copy
does not compare equal to its source. -/
theorem copy_of_heap65_not_equal :
    (copyAssign (Bvec.heap 65 2 [0, 0])).size = 127 ∧
    beqBvec (copyAssign (Bvec.heap 65 2 [0, 0])) (Bvec.heap 65 2 [0, 0]) = false := by
  decide

/-- C2: the heap branch of single-position `erase` performs the bit shift but
never decrements `m_data.heap.size`: erasing position 0 of the heap-backed
vector [false, true] leaves `size` at 2 (with the shifted contents
[true, false]) instead of producing the 1-bit vector [true]. -/
theorem eraseOne_heap_keeps_size :
    ((Bvec.heap 2 2 [2, 0]).eraseOne 0).size = 2 ∧
    ((Bvec.heap 2 2 [2, 0]).eraseOne 0).get_at 0 = true ∧
    ((Bvec.heap 2 2 [2, 0]).eraseOne 0).get_at 1 = false := by
  decide

/-- C3: promoting an inline vector whose size is below one word,
`grow_to_heap` writes `(data >> 64) & mask` into `pointer[0]` instead of the
low word `data & mask`: the single stored `true` bit of `{true}` is lost by
`resize(121, false)`. -/
theorem growToHeap_loses_low_word :
    ((Bvec.stack 1 1).resize 121 false).size = 121 ∧
    ((Bvec.stack 1 1).resize 121 false).get_at 0 = false := by
  decide

/-- C4: range `erase(0, 1)` on a 128-bit heap vector folds only the first
word and never shifts the following words (after the fold
`lastBlock == firstBlock`, and the shift path requires `lastBlock >
firstBlock`): with only bit 65 set, the result's bit 64 is `false` although
the claimed concatenation `b[0..0) ++ b[1..128)` puts old bit 65 = `true`
there. -/
theorem eraseRange_heap_misses_tail :
    (Bvec.heap 128 2 [0, 2]).get_at 65 = true ∧
    ((Bvec.heap 128 2 [0, 2]).eraseRange 0 1).size = 127 ∧
    ((Bvec.heap 128 2 [0, 2]).eraseRange 0 1).get_at 64 = false := by
  decide

/-- C5: `resize_heap` growing within the current capacity fills only the tail
word, never the following whole words: a heap vector of 10 bits with 2
allocated words resized to 100 with fill `true` leaves bit 64 equal to the
old buffer content (0) instead of the fill value. -/
theorem resizeHeap_skips_whole_word_fill :
    ((Bvec.heap 10 2 [0, 0]).resize 100 true).size = 100 ∧
    ((Bvec.heap 10 2 [0, 0]).resize 100 true).get_at 20 = true ∧
    ((Bvec.heap 10 2 [0, 0]).resize 100 true).get_at 64 = false := by
  decide

/-- C6: because the heap branch of `erase` never decrements the size (C2),
`std::erase_if` with an always-true predicate on a heap-backed vector loops
forever: the loop state is a fixpoint (`iter` stays 0, `size` stays 2), so no
amount of fuel makes the loop reach `c.end()`. -/
theorem eraseIf_heap_no_fuel_suffices :
    ∀ fuel : Nat, eraseIfLoop (fun _ => true) (Bvec.heap 2 2 [0, 0]) 0 fuel = none := by
  intro fuel
  induction fuel with
  | zero => rfl
  | succ n ih =>
    have hstep : (Bvec.heap 2 2 [0, 0]).eraseOne 0 = Bvec.heap 2 2 [0, 0] := by decide
    rw [eraseIfLoop]
    rw [if_pos (by decide), if_pos rfl, hstep]
    exact ih

/-- C9: `std::erase` popcounts 32-bit casts `bvec_cast<unsigned int>(c, ii)`
but iterates only `(size + 63) / 64` times, so bits 32..63 of every 64-bit
word are never counted: on the 33-bit vector with only bit 32 set,
`std::erase(c, true)` returns 0 and leaves size 33 instead of returning 1
and leaving the 32-bit all-false vector. -/
theorem stdErase_misses_upper_half_words :
    stdErase (Bvec.stack 33 (2 ^ 32)) true = (0, Bvec.stack 33 0) := by
  decide

end Xilefian
